import Mathlib

/-!
# Verification of the Rune Morse codec and push-to-talk orchestrator

Shallow embedding of the algorithmic core of the Rune repository:

* `src/morse/interpreter.py` — `MORSE_CODE`, `REVERSE_MORSE`,
  `text_to_morse`, `morse_to_text`, `is_morse`;
* `src/interface/button.py` — the button monitor loop (`monitor_button`);
* `src/rune.py` — `handle_button_press` (the press handler's call sequence);
* `src/audio/player.py` — `AudioPlayer.stop`'s conditional sink stop.

Python `str` values are modelled as `List Char`; Python `dict`s that the
code only consults by key are modelled as association lists with
first-match lookup (key sets are duplicate-free, so first-match agrees
with Python semantics).  Audio sample amplitudes are modelled as exact
rationals; the amplitude threshold `0.5` becomes `(1/2 : ℚ)`.
-/

namespace Rune

/-! ## The Morse table (`MorseInterpreter.MORSE_CODE`, interpreter.py lines 14-27) -/

/-- The character → dot/dash-pattern table `MORSE_CODE`, entry for entry
in the source's order. -/
def MORSE_CODE : List (Char × List Char) :=
  [('A', ".-".toList), ('B', "-...".toList), ('C', "-.-.".toList),
   ('D', "-..".toList), ('E', ".".toList),
   ('F', "..-.".toList), ('G', "--.".toList), ('H', "....".toList),
   ('I', "..".toList), ('J', ".---".toList),
   ('K', "-.-".toList), ('L', ".-..".toList), ('M', "--".toList),
   ('N', "-.".toList), ('O', "---".toList),
   ('P', ".--.".toList), ('Q', "--.-".toList), ('R', ".-.".toList),
   ('S', "...".toList), ('T', "-".toList),
   ('U', "..-".toList), ('V', "...-".toList), ('W', ".--".toList),
   ('X', "-..-".toList), ('Y', "-.--".toList),
   ('Z', "--..".toList), ('0', "-----".toList), ('1', ".----".toList),
   ('2', "..---".toList), ('3', "...--".toList),
   ('4', "....-".toList), ('5', ".....".toList), ('6', "-....".toList),
   ('7', "--...".toList), ('8', "---..".toList),
   ('9', "----.".toList), ('.', ".-.-.-".toList), (',', "--..--".toList),
   ('?', "..--..".toList),
   ('\'', ".----.".toList), ('!', "-.-.--".toList), ('/', "-..-.".toList),
   ('(', "-.--.".toList),
   (')', "-.--.-".toList), ('&', ".-...".toList), (':', "---...".toList),
   (';', "-.-.-.".toList),
   ('=', "-...-".toList), ('+', ".-.-.".toList), ('-', "-....-".toList),
   ('_', "..--.-".toList),
   ('"', ".-..-.".toList), ('$', "...-..-".toList), ('@', ".--.-.".toList)]

/-- The reverse table `REVERSE_MORSE = {v: k for k, v in MORSE_CODE.items()}`
(interpreter.py line 30).  Python keeps the *last* binding of a duplicated
key, so the reversed association list with first-match lookup is the
faithful model. -/
def REVERSE_MORSE : List (List Char × Char) :=
  (MORSE_CODE.map (fun p => (p.2, p.1))).reverse

/-! ## Python's `str.upper`, restricted per character

The table only contains ASCII characters, and `str.upper` acts
independently on each character for the ASCII range; the lookup-table
model below is Python's `upper` on the alphabet the codec can ever
recognise. -/

/-- The 26 ASCII lower → upper pairs. -/
def LOWER_UPPER : List (Char × Char) :=
  [('a', 'A'), ('b', 'B'), ('c', 'C'), ('d', 'D'), ('e', 'E'), ('f', 'F'),
   ('g', 'G'), ('h', 'H'), ('i', 'I'), ('j', 'J'), ('k', 'K'), ('l', 'L'),
   ('m', 'M'), ('n', 'N'), ('o', 'O'), ('p', 'P'), ('q', 'Q'), ('r', 'R'),
   ('s', 'S'), ('t', 'T'), ('u', 'U'), ('v', 'V'), ('w', 'W'), ('x', 'X'),
   ('y', 'Y'), ('z', 'Z')]

/-- Per-character model of Python's `str.upper`. -/
def pyUpperChar (c : Char) : Char :=
  (LOWER_UPPER.lookup c).getD c

/-- Model of Python's `str.upper` on a whole string. -/
def pyUpper (s : List Char) : List Char :=
  s.map pyUpperChar

/-! ## Python's `str.strip` and `str.split` -/

/-- The characters Python's `str.strip()` removes (ASCII whitespace; the
codec's strings never contain non-ASCII whitespace). -/
def isPyWS (c : Char) : Bool :=
  c == ' ' || c == '\t' || c == '\n' || c == '\r' || c == '\x0b' || c == '\x0c'

/-- Remove trailing whitespace. -/
def dropTrailingWS (l : List Char) : List Char :=
  (l.reverse.dropWhile isPyWS).reverse

/-- Model of Python's `str.strip()`. -/
def stripChars (l : List Char) : List Char :=
  dropTrailingWS (l.dropWhile isPyWS)

/-- Prepend a character to the first piece of a split result. -/
def consHead (c : Char) : List (List Char) → List (List Char)
  | [] => [[c]]
  | w :: ws => (c :: w) :: ws

/-- Model of Python's `split(" ")`: splits on every single space, keeping
empty pieces. -/
def splitOnSpace : List Char → List (List Char)
  | [] => [[]]
  | c :: rest =>
    if c = ' ' then [] :: splitOnSpace rest
    else consHead c (splitOnSpace rest)

/-- Model of Python's `split("   ")`: cuts at each leftmost occurrence of
three consecutive spaces, keeping empty pieces. -/
def splitOnThreeSpaces : List Char → List (List Char)
  | [] => [[]]
  | [c] => [[c]]
  | [c, d] => [[c, d]]
  | c :: d :: e :: rest =>
    if c = ' ' ∧ d = ' ' ∧ e = ' ' then [] :: splitOnThreeSpaces rest
    else consHead c (splitOnThreeSpaces (d :: e :: rest))

/-! ## The codec (`morse_to_text`, `text_to_morse`; interpreter.py lines 90-130) -/

/-- One loop iteration of `text_to_morse`: what the loop body appends for
one (already uppercased) character.  A space appends the word gap
`"   "`; a character in the table appends its pattern followed by the
character gap `" "`; anything else appends nothing. -/
def encodeChar (c : Char) : List Char :=
  if c = ' ' then [' ', ' ', ' ']
  else
    match MORSE_CODE.lookup c with
    | some p => p ++ [' ']
    | none => []

/-- Embedding of `MorseInterpreter.text_to_morse` (interpreter.py lines
112-130): uppercase, encode each character, join, strip. -/
def text_to_morse (text : List Char) : List Char :=
  stripChars (((text.map pyUpperChar).map encodeChar).flatten)

/-- Embedding of `MorseInterpreter.morse_to_text` (interpreter.py lines
90-110): split into words on `"   "`, split each word on `" "`, keep the
characters of the patterns found in `REVERSE_MORSE`, append a space per
word, join, strip. -/
def morse_to_text (morse : List Char) : List Char :=
  stripChars (((splitOnThreeSpaces morse).map
    (fun word => ((splitOnSpace word).filterMap
      (fun pat => REVERSE_MORSE.lookup pat)) ++ [' '])).flatten)

/-! ## Morse detection (`MorseInterpreter.is_morse`, interpreter.py lines 44-69) -/

/-- Absolute value on exact rational amplitudes (model of `np.abs`). -/
def ratAbs (x : ℚ) : ℚ :=
  if x < 0 then -x else x

/-- The amplitude threshold `self.threshold = 0.5` (interpreter.py line 40). -/
def amplitudeThreshold : ℚ := mkRat 1 2

/-- Embedding of `MorseInterpreter.is_morse` on a mono buffer:
envelope = |samples|, peaks = envelope > 0.5, return `any(peaks)`. -/
def is_morse (audio : List ℚ) : Bool :=
  (audio.map (fun x => ratAbs x)).any (fun e => amplitudeThreshold < e)

/-- The two recognition paths of `Rune.handle_button_press`
(rune.py lines 108-113). -/
inductive Branch
  | morse
  | speech
deriving DecidableEq

/-- The dispatch decision of `handle_button_press`: the Morse path iff
`is_morse` returns true, else the speech path. -/
def recognizeBranch (audio : List ℚ) : Branch :=
  if is_morse audio then Branch.morse else Branch.speech

/-- Modelled from the spec: the Envelope Segmenter (§4.1) run-length-encodes
threshold crossings of the amplitude envelope into tone segments; the
count of maximal runs of samples whose envelope exceeds the threshold is
the number of tone segments.  No segmenter exists in `src/`; only the
`is_morse` stub consumes the envelope. -/
def toneRunCountAux (threshold : ℚ) (inRun : Bool) : List ℚ → Nat
  | [] => 0
  | x :: rest =>
    (if threshold < ratAbs x && !inRun then 1 else 0) +
      toneRunCountAux threshold (decide (threshold < ratAbs x)) rest

/-- Modelled from the spec: number of tone segments (maximal
above-threshold runs) in a buffer, per the §4.1 Envelope Segmenter. -/
def toneRunCount (threshold : ℚ) (audio : List ℚ) : Nat :=
  toneRunCountAux threshold false audio

/-! ## The button monitor loop (`ButtonInterface.monitor_button`,
button.py lines 72-108)

One loop iteration observes the button level and, on a rising edge,
invokes the press callback inside `try/except`: a raising callback is
caught and reported (button.py lines 93-96) and the loop continues.  The
iteration is modelled as a step function from the `self.pressed` flag and
the observed level (plus whether the callback would raise) to the new
flag and the externally visible event. -/

/-- Externally visible outcome of one monitor iteration. -/
inductive MonEvent
  | callbackOk
  | callbackErrorReported
deriving DecidableEq

/-- One iteration of the `while self.running` loop body of
`monitor_button`. -/
def monitorStep (pressed : Bool) (buttonState : Bool) (cbFails : Bool) :
    Bool × Option MonEvent :=
  if buttonState && !pressed then
    (true, some (if cbFails then MonEvent.callbackErrorReported else MonEvent.callbackOk))
  else if !buttonState && pressed then
    (false, none)
  else
    (pressed, none)

/-- The monitor loop over a finite observation trace: each entry is the
observed button level and whether the callback would raise if invoked.
Returns the final `pressed` flag and the events, in order. -/
def monitorRun (pressed : Bool) : List (Bool × Bool) → Bool × List MonEvent
  | [] => (pressed, [])
  | (b, f) :: rest =>
    let s := monitorStep pressed b f
    let r := monitorRun s.1 rest
    (r.1, s.2.toList ++ r.2)

/-- Rising edges in an observed level sequence: positions where the level
is high and the previously observed level was low. -/
def countRising (prev : Bool) : List Bool → Nat
  | [] => 0
  | b :: rest => (if b && !prev then 1 else 0) + countRising b rest

/-! ## The press handler (`Rune.handle_button_press`, rune.py lines 98-122)

The handler's body is a fixed sequence of collaborator calls; the model
records that sequence as a trace, including `AudioPlayer.stop`'s
conditional call to the playback sink (`sd.stop()`, player.py lines
198-203, invoked exactly when `self.playing`). -/

/-- Collaborator calls made by `handle_button_press`, in program order. -/
inductive PressAction
  | sinkStop
  | record
  | decodeMorse
  | transcribe
  | assistantProcess
  | speak
deriving DecidableEq

/-- Embedding of `AudioPlayer.stop` (player.py lines 198-203): calls the
playback sink's stop exactly when `self.playing` is set. -/
def playerStopActions (playing : Bool) : List PressAction :=
  if playing then [PressAction.sinkStop] else []

/-- The sequence of collaborator calls performed by one run of
`handle_button_press` (rune.py lines 98-122), given whether playback was
in progress and what `is_morse` returned. -/
def handleTrace (playing : Bool) (isMorseResult : Bool) : List PressAction :=
  playerStopActions playing ++
    [PressAction.record,
     (if isMorseResult then PressAction.decodeMorse else PressAction.transcribe),
     PressAction.assistantProcess, PressAction.speak]

/-! ## Derived definitions used by the correctness statements -/

/-- Join words with a separator (the shape of a text whose words are
separated by single spaces, and of the codec's intermediate strings). -/
def joinWords (sep : List Char) : List (List Char) → List Char
  | [] => []
  | [w] => w
  | w :: x :: ws => w ++ sep ++ joinWords sep (x :: ws)

/-- No two consecutive spaces occur in the string. -/
def noTwoSp : List Char → Bool
  | [] => true
  | [_] => true
  | a :: b :: rest => (!(a == ' ' && b == ' ')) && noTwoSp (b :: rest)

/-- The dot/dash pattern of a character per the table (empty off the
table's domain). -/
def patOf (c : Char) : List Char :=
  (MORSE_CODE.lookup c).getD []

/-- A text word all of whose characters the table recognises. -/
def GoodWord (w : List Char) : Prop :=
  w ≠ [] ∧ ∀ c ∈ w, (MORSE_CODE.lookup c).isSome = true

/-- The encoding of one word before gap bookkeeping: the patterns of its
characters joined by single spaces. -/
def encW (w : List Char) : List Char :=
  joinWords [' '] (w.map patOf)

/-- The pieces Python's `split("   ")` recovers from the encoder's output:
every word piece after the first keeps the leftover fourth space. -/
def decorate : List (List Char) → List (List Char)
  | [] => []
  | v :: vs => v :: vs.map (fun w => ' ' :: w)

/-! ## Generic lemmas: association lists, stripping, splitting -/

/-- Association-list lookup only succeeds on a stored pair. -/
theorem lookup_mem {α β : Type} [BEq α] [LawfulBEq α] :
    ∀ {l : List (α × β)} {a : α} {b : β}, l.lookup a = some b → (a, b) ∈ l := by
  intro l
  induction l with
  | nil => intro a b h; simp [List.lookup] at h
  | cons p rest ih =>
    intro a b h
    obtain ⟨k, v⟩ := p
    rw [List.lookup] at h
    by_cases hk : (a == k) = true
    · simp only [hk] at h
      cases h
      exact (eq_of_beq hk) ▸ List.mem_cons_self _ _
    · simp only [Bool.not_eq_true] at hk
      simp only [hk] at h
      exact List.mem_cons_of_mem _ (ih h)

/-- A list with a head is not empty. -/
theorem ne_nil_of_head? {α : Type} {l : List α} {c : α} (h : l.head? = some c) :
    l ≠ [] := by
  cases l with
  | nil => simp at h
  | cons a rest => simp

/-- The head surviving `dropWhile` refutes the predicate. -/
theorem head?_dropWhile_not {p : Char → Bool} :
    ∀ {l : List Char} {c : Char}, (l.dropWhile p).head? = some c → p c = false := by
  intro l
  induction l with
  | nil => intro c h; simp [List.dropWhile] at h
  | cons a rest ih =>
    intro c h
    rw [List.dropWhile_cons] at h
    by_cases hp : p a = true
    · rw [if_pos hp] at h; exact ih h
    · rw [if_neg (by simp [hp])] at h
      rw [List.head?_cons, Option.some_inj] at h
      cases h
      simpa using hp

/-- `dropWhile` is the identity when the head refutes the predicate. -/
theorem dropWhile_of_head_not {p : Char → Bool} {l : List Char} {c : Char}
    (h : l.head? = some c) (hc : p c = false) : l.dropWhile p = l := by
  cases l with
  | nil => rfl
  | cons a rest =>
    rw [List.head?_cons, Option.some_inj] at h
    cases h
    rw [List.dropWhile_cons, if_neg (by simp [hc])]

/-- Trailing-whitespace removal eats a trailing space. -/
theorem dropTrailingWS_append_ws (l : List Char) :
    dropTrailingWS (l ++ [' ']) = dropTrailingWS l := by
  unfold dropTrailingWS
  rw [List.reverse_append]
  rfl

/-- Trailing-whitespace removal is the identity when the last character is
not whitespace. -/
theorem dropTrailingWS_of_last_not {l : List Char} {c : Char}
    (h : l.getLast? = some c) (hc : isPyWS c = false) : dropTrailingWS l = l := by
  unfold dropTrailingWS
  rw [dropWhile_of_head_not (by rw [List.head?_reverse]; exact h) hc,
    List.reverse_reverse]

/-- Stripping is the identity on a string whose two ends are not
whitespace. -/
theorem stripChars_clean {l : List Char} {c d : Char}
    (hh : l.head? = some c) (hc : isPyWS c = false)
    (hl : l.getLast? = some d) (hd : isPyWS d = false) : stripChars l = l := by
  unfold stripChars
  rw [dropWhile_of_head_not hh hc, dropTrailingWS_of_last_not hl hd]

/-- Stripping removes exactly one trailing space from a string whose two
ends are not whitespace. -/
theorem stripChars_append_ws {l : List Char} {c d : Char}
    (hh : l.head? = some c) (hc : isPyWS c = false)
    (hl : l.getLast? = some d) (hd : isPyWS d = false) :
    stripChars (l ++ [' ']) = l := by
  unfold stripChars
  rw [dropWhile_of_head_not
        (by rw [List.head?_append_of_ne_nil _ (ne_nil_of_head? hh)]; exact hh) hc,
    dropTrailingWS_append_ws, dropTrailingWS_of_last_not hl hd]

/-- The stripped string is a prefix of the original: the removed trailing
whitespace can be appended back. -/
theorem dropTrailingWS_prefix (l : List Char) :
    dropTrailingWS l ++ (l.reverse.takeWhile isPyWS).reverse = l := by
  unfold dropTrailingWS
  rw [← List.reverse_append, List.takeWhile_append_dropWhile, List.reverse_reverse]

/-- A head of the trailing-stripped string is the head of the string. -/
theorem head?_dropTrailingWS {l : List Char} {c : Char}
    (h : (dropTrailingWS l).head? = some c) : l.head? = some c := by
  conv_lhs => rw [← dropTrailingWS_prefix l]
  rw [List.head?_append_of_ne_nil _ (ne_nil_of_head? h)]
  exact h

/-- The head of a stripped string is never whitespace. -/
theorem stripChars_head_not_ws {l : List Char} {c : Char}
    (h : (stripChars l).head? = some c) : isPyWS c = false :=
  head?_dropWhile_not (head?_dropTrailingWS h)

/-- The last character of a stripped string is never whitespace. -/
theorem stripChars_last_not_ws {l : List Char} {c : Char}
    (h : (stripChars l).getLast? = some c) : isPyWS c = false := by
  unfold stripChars dropTrailingWS at h
  rw [← List.head?_reverse, List.reverse_reverse] at h
  exact head?_dropWhile_not h

/-! ## Lemmas about `noTwoSp` -/

/-- Unfolding equation for `noTwoSp` on two exposed heads. -/
theorem noTwoSp_cons_cons (a b : Char) (l : List Char) :
    noTwoSp (a :: b :: l) = ((!(a == ' ' && b == ' ')) && noTwoSp (b :: l)) := rfl

/-- `noTwoSp` restricts to the tail. -/
theorem noTwoSp_tail {a : Char} {l : List Char} (h : noTwoSp (a :: l) = true) :
    noTwoSp l = true := by
  cases l with
  | nil => rfl
  | cons b rest =>
    rw [noTwoSp_cons_cons, Bool.and_eq_true] at h
    exact h.2

/-- After a space admitted by `noTwoSp`, the next character is not a
space. -/
theorem noTwoSp_space_head {l : List Char} {c : Char}
    (h : noTwoSp (' ' :: l) = true) (hc : l.head? = some c) : c ≠ ' ' := by
  cases l with
  | nil => simp at hc
  | cons b rest =>
    rw [List.head?_cons, Option.some_inj] at hc
    cases hc
    rw [noTwoSp_cons_cons] at h
    intro he
    subst he
    simp at h

/-- A space-free prefix never creates a double space. -/
theorem noTwoSp_sf_append : ∀ {p t : List Char}, ' ' ∉ p → noTwoSp t = true →
    noTwoSp (p ++ t) = true
  | [], _, _, ht => ht
  | [c], t, h, ht => by
    have hc : (c == ' ') = false := by
      simp only [beq_eq_false_iff_ne, ne_eq]
      exact fun e => h (by simp [e])
    cases t with
    | nil => rfl
    | cons b rest =>
      rw [List.singleton_append, noTwoSp_cons_cons, hc]
      simp [ht]
  | c :: d :: p', t, h, ht => by
    have hc : (c == ' ') = false := by
      simp only [beq_eq_false_iff_ne, ne_eq]
      exact fun e => h (by simp [e])
    have h' : ' ' ∉ d :: p' := fun hm => h (List.mem_cons_of_mem _ hm)
    rw [List.cons_append, List.cons_append, noTwoSp_cons_cons, hc]
    have := noTwoSp_sf_append h' ht
    rw [List.cons_append] at this
    simp [this]

/-- A space-free string has no double space. -/
theorem noTwoSp_of_sf {p : List Char} (h : ' ' ∉ p) : noTwoSp p = true := by
  have := noTwoSp_sf_append (t := []) h rfl
  simpa using this

/-- Prepending a space to a string with a non-space head keeps
`noTwoSp`. -/
theorem noTwoSp_space_cons {x : List Char} {c : Char} (hh : x.head? = some c)
    (hc : c ≠ ' ') (hx : noTwoSp x = true) : noTwoSp (' ' :: x) = true := by
  cases x with
  | nil => rfl
  | cons b rest =>
    rw [List.head?_cons, Option.some_inj] at hh
    cases hh
    rw [noTwoSp_cons_cons, (by simp [hc] : (c == ' ') = false)]
    simp [hx]

/-! ## Lemmas about the splitters -/

/-- Splitting at a leading space. -/
theorem splitOnSpace_space (t : List Char) :
    splitOnSpace (' ' :: t) = [] :: splitOnSpace t := by
  rw [splitOnSpace, if_pos rfl]

/-- A non-space head joins the first piece. -/
theorem splitOnSpace_cons_ne {c : Char} (hc : c ≠ ' ') (t : List Char) :
    splitOnSpace (c :: t) = consHead c (splitOnSpace t) := by
  rw [splitOnSpace, if_neg hc]

/-- A space-free string is one piece. -/
theorem splitOnSpace_sf : ∀ {w : List Char}, ' ' ∉ w → splitOnSpace w = [w]
  | [], _ => rfl
  | c :: rest, h => by
    have hc : c ≠ ' ' := fun e => h (by simp [e])
    rw [splitOnSpace_cons_ne hc,
      splitOnSpace_sf (fun hm => h (List.mem_cons_of_mem _ hm))]
    rfl

/-- Splitting cuts exactly at the space after a space-free piece. -/
theorem splitOnSpace_append : ∀ {w : List Char} (t : List Char), ' ' ∉ w →
    splitOnSpace (w ++ ' ' :: t) = w :: splitOnSpace t
  | [], t, _ => by rw [List.nil_append, splitOnSpace_space]
  | c :: rest, t, h => by
    have hc : c ≠ ' ' := fun e => h (by simp [e])
    rw [List.cons_append, splitOnSpace_cons_ne hc,
      splitOnSpace_append t (fun hm => h (List.mem_cons_of_mem _ hm))]
    rfl

/-- Python's `split(" ")` inverts single-space joining of space-free
pieces. -/
theorem splitOnSpace_joinWords : ∀ {ps : List (List Char)}, ps ≠ [] →
    (∀ p ∈ ps, ' ' ∉ p) → splitOnSpace (joinWords [' '] ps) = ps
  | [p], _, h => by
    rw [joinWords, splitOnSpace_sf (h p (by simp))]
  | p :: q :: ps, _, h => by
    rw [joinWords, List.append_assoc, List.singleton_append,
      splitOnSpace_append _ (h p (by simp)),
      splitOnSpace_joinWords (by simp) (fun r hr => h r (List.mem_cons_of_mem _ hr))]

/-- Unfolding equation for the word splitter with three exposed heads. -/
theorem splitOnThreeSpaces_cons3 (c d e : Char) (rest : List Char) :
    splitOnThreeSpaces (c :: d :: e :: rest) =
      if c = ' ' ∧ d = ' ' ∧ e = ' ' then [] :: splitOnThreeSpaces rest
      else consHead c (splitOnThreeSpaces (d :: e :: rest)) := rfl

/-- A string without double spaces is a single word piece. -/
theorem splitOnThreeSpaces_noTwo :
    ∀ {l : List Char}, noTwoSp l = true → splitOnThreeSpaces l = [l]
  | [], _ => rfl
  | [_], _ => rfl
  | [_, _], _ => rfl
  | c :: d :: e :: rest, h => by
    have hcd : (!(c == ' ' && d == ' ')) = true := by
      rw [noTwoSp_cons_cons, Bool.and_eq_true] at h
      exact h.1
    rw [splitOnThreeSpaces_cons3, if_neg, splitOnThreeSpaces_noTwo (noTwoSp_tail h)]
    · rfl
    · rintro ⟨hc, hd, _⟩
      subst hc
      subst hd
      simp at hcd

/-- Python's `split("   ")` cuts exactly at an explicit three-space gap
after a piece that has no double space and does not end in a space. -/
theorem splitOnThreeSpaces_boundary :
    ∀ {A : List Char} (B : List Char), noTwoSp A = true → A.getLast? ≠ some ' ' →
      splitOnThreeSpaces (A ++ ' ' :: ' ' :: ' ' :: B) = A :: splitOnThreeSpaces B
  | [], B, _, _ => by
    rw [List.nil_append, splitOnThreeSpaces_cons3, if_pos ⟨rfl, rfl, rfl⟩]
  | [c], B, _, hl => by
    have hc : c ≠ ' ' := by
      intro e
      exact hl (by simp [e])
    rw [List.singleton_append, splitOnThreeSpaces_cons3,
      if_neg (fun hx => hc hx.1), splitOnThreeSpaces_cons3, if_pos ⟨rfl, rfl, rfl⟩]
    rfl
  | c :: d :: A', B, h, hl => by
    have hcd : ¬(c = ' ' ∧ d = ' ') := by
      rw [noTwoSp_cons_cons, Bool.and_eq_true] at h
      rintro ⟨hc, hd⟩
      subst hc
      subst hd
      simp at h
    cases A' with
    | nil =>
      rw [List.cons_append, List.singleton_append, splitOnThreeSpaces_cons3,
        if_neg (fun hx => hcd ⟨hx.1, hx.2.1⟩)]
      have hd : d ≠ ' ' := by
        intro e
        exact hl (by simp [e])
      have := splitOnThreeSpaces_boundary (A := [d]) B rfl (by simp [hd])
      rw [List.singleton_append] at this
      rw [this]
      rfl
    | cons e A'' =>
      simp only [List.cons_append]
      rw [splitOnThreeSpaces_cons3, if_neg (fun hx => hcd ⟨hx.1, hx.2.1⟩)]
      have hrec := splitOnThreeSpaces_boundary (A := d :: e :: A'') B
        (noTwoSp_tail h) (by simpa using hl)
      simp only [List.cons_append] at hrec
      rw [hrec]
      rfl

/-- Python's `split("   ")` inverts three-space joining of pieces that
have no double spaces and do not end in a space. -/
theorem splitOnThreeSpaces_joinWords :
    ∀ {vs : List (List Char)}, vs ≠ [] →
      (∀ v ∈ vs, noTwoSp v = true ∧ v.getLast? ≠ some ' ') →
      splitOnThreeSpaces (joinWords [' ', ' ', ' '] vs) = vs
  | [v], _, h => by
    rw [joinWords, splitOnThreeSpaces_noTwo (h v (by simp)).1]
  | v :: w :: vs, _, h => by
    rw [joinWords, List.append_assoc]
    show splitOnThreeSpaces
        (v ++ ' ' :: ' ' :: ' ' :: joinWords [' ', ' ', ' '] (w :: vs)) = _
    rw [splitOnThreeSpaces_boundary _ (h v (by simp)).1 (h v (by simp)).2,
      splitOnThreeSpaces_joinWords (by simp)
        (fun r hr => h r (List.mem_cons_of_mem _ hr))]

/-! ## Facts about the table -/

/-- Every entry of the forward table reverse-looks-up to its key. -/
theorem table_roundtrip :
    ∀ pr ∈ MORSE_CODE, REVERSE_MORSE.lookup pr.2 = some pr.1 := by
  decide

/-- No two entries of the table share a pattern. -/
theorem table_injective :
    ∀ a ∈ MORSE_CODE, ∀ b ∈ MORSE_CODE, a.2 = b.2 → a.1 = b.1 := by
  decide

/-- Every pattern is a nonempty string of dots and dashes. -/
theorem table_patterns_wf :
    ∀ pr ∈ MORSE_CODE, pr.2 ≠ [] ∧ ∀ ch ∈ pr.2, ch = '.' ∨ ch = '-' := by
  decide

/-- No table key is whitespace. -/
theorem table_keys_not_ws : ∀ pr ∈ MORSE_CODE, isPyWS pr.1 = false := by
  decide

/-- The empty pattern is not in the reverse table. -/
theorem lookupRev_nil : REVERSE_MORSE.lookup ([] : List Char) = none := by
  decide

/-- The space character is not a table key. -/
theorem lookup_space : MORSE_CODE.lookup ' ' = none := by
  decide

/-- Dots and dashes are not whitespace. -/
theorem dotDash_not_ws {ch : Char} (h : ch = '.' ∨ ch = '-') :
    isPyWS ch = false := by
  rcases h with rfl | rfl <;> rfl

/-- Dots and dashes are not the space character. -/
theorem dotDash_ne_space {ch : Char} (h : ch = '.' ∨ ch = '-') : ch ≠ ' ' := by
  rcases h with rfl | rfl <;> decide

/-- A dot/dash string is space-free. -/
theorem sf_of_dotDash {p : List Char} (h : ∀ ch ∈ p, ch = '.' ∨ ch = '-') :
    ' ' ∉ p := by
  intro hm
  rcases h ' ' hm with he | he <;> simp at he

/-- A recognised character is a table key with a well-formed pattern that
reverse-looks-up to it. -/
theorem key_facts {c : Char} (h : (MORSE_CODE.lookup c).isSome = true) :
    patOf c ≠ [] ∧ (∀ ch ∈ patOf c, ch = '.' ∨ ch = '-') ∧
      REVERSE_MORSE.lookup (patOf c) = some c ∧ isPyWS c = false := by
  obtain ⟨p, hp⟩ := Option.isSome_iff_exists.mp h
  have hm : (c, p) ∈ MORSE_CODE := lookup_mem hp
  have hpat : patOf c = p := by rw [patOf, hp]; rfl
  rw [hpat]
  exact ⟨(table_patterns_wf _ hm).1, (table_patterns_wf _ hm).2,
    table_roundtrip _ hm, table_keys_not_ws _ hm⟩

/-! ## Lemmas about `joinWords` -/

/-- A head character belongs to the list. -/
theorem head_mem_of_head? {α : Type} {l : List α} {c : α} (h : l.head? = some c) :
    c ∈ l := by
  cases l with
  | nil => simp at h
  | cons a rest =>
    rw [List.head?_cons, Option.some_inj] at h
    cases h
    exact List.mem_cons_self _ _

/-- A last character belongs to the list. -/
theorem last_mem_of_getLast? {α : Type} :
    ∀ {l : List α} {c : α}, l.getLast? = some c → c ∈ l
  | [a], c, h => by
    rw [List.getLast?_singleton, Option.some_inj] at h
    cases h
    exact List.mem_cons_self _ _
  | a :: b :: rest, c, h => by
    rw [List.getLast?_cons_cons] at h
    exact List.mem_cons_of_mem _ (last_mem_of_getLast? h)

/-- A nonempty list has a last character. -/
theorem getLast?_ne_nil {α : Type} :
    ∀ {l : List α}, l ≠ [] → ∃ c, l.getLast? = some c
  | [c], _ => ⟨c, rfl⟩
  | c :: d :: l, _ => by
    obtain ⟨e, he⟩ := getLast?_ne_nil (l := d :: l) (by simp)
    exact ⟨e, by rw [List.getLast?_cons_cons, he]⟩

/-- The head of a join is the head of the nonempty first word. -/
theorem joinWords_head? (sep : List Char) :
    ∀ {vs : List (List Char)} {v : List Char}, vs.head? = some v → v ≠ [] →
      (joinWords sep vs).head? = v.head?
  | [w], v, hv, _ => by
    rw [List.head?_cons, Option.some_inj] at hv
    cases hv
    rfl
  | w :: x :: ws, v, hv, hne => by
    rw [List.head?_cons, Option.some_inj] at hv
    cases hv
    rw [joinWords, List.append_assoc, List.head?_append_of_ne_nil _ hne]

/-- The last of a join is the last of the nonempty last word. -/
theorem joinWords_getLast? (sep : List Char) :
    ∀ {vs : List (List Char)} {v : List Char}, vs.getLast? = some v → v ≠ [] →
      (joinWords sep vs).getLast? = v.getLast?
  | [w], v, hv, _ => by
    rw [List.getLast?_singleton, Option.some_inj] at hv
    cases hv
    rfl
  | w :: x :: ws, v, hv, hne => by
    rw [List.getLast?_cons_cons] at hv
    have hrec := @joinWords_getLast? sep (x :: ws) _ hv hne
    obtain ⟨e, he⟩ := getLast?_ne_nil hne
    have hJne : joinWords sep (x :: ws) ≠ [] := by
      intro hnil
      rw [hnil, he] at hrec
      simp at hrec
    rw [joinWords, List.getLast?_append_of_ne_nil _ hJne, hrec]

/-- Mapping a character function commutes with joining. -/
theorem map_joinWords (f : Char → Char) (sep : List Char) :
    ∀ vs : List (List Char),
      (joinWords sep vs).map f = joinWords (sep.map f) (vs.map (List.map f))
  | [] => rfl
  | [w] => rfl
  | w :: x :: ws => by
    rw [joinWords, List.map_append, List.map_append,
      map_joinWords f sep (x :: ws)]
    rfl

/-- Mapping over a list commutes with taking the optional last element. -/
theorem getLast?_map {α β : Type} (f : α → β) :
    ∀ l : List α, (l.map f).getLast? = l.getLast?.map f
  | [] => rfl
  | [v] => rfl
  | v :: w :: l => by
    rw [List.map_cons, List.map_cons, List.getLast?_cons_cons,
      List.getLast?_cons_cons, ← List.map_cons f w l, getLast?_map f (w :: l)]

/-- Joining nonempty space-free pieces with single spaces never creates a
double space. -/
theorem noTwoSp_joinWords_sf :
    ∀ {ps : List (List Char)}, (∀ p ∈ ps, ' ' ∉ p ∧ p ≠ []) →
      noTwoSp (joinWords [' '] ps) = true
  | [], _ => rfl
  | [p], h => noTwoSp_of_sf (h p (by simp)).1
  | p :: q :: ps, h => by
    rw [joinWords, List.append_assoc, List.singleton_append]
    apply noTwoSp_sf_append (h p (by simp)).1
    cases hq : q.head? with
    | none =>
      exact absurd (by simpa using hq) (h q (by simp)).2
    | some cq =>
      have hhead : (joinWords [' '] (q :: ps)).head? = some cq := by
        rw [joinWords_head? _ (List.head?_cons) (h q (by simp)).2, hq]
      refine noTwoSp_space_cons hhead ?_ (noTwoSp_joinWords_sf
        (fun r hr => h r (List.mem_cons_of_mem _ hr)))
      intro he
      subst he
      exact (h q (by simp)).1 (head_mem_of_head? hq)

/-! ## Lemmas about the encoder -/

/-- The loop body on a space appends the word gap. -/
theorem encodeChar_space : encodeChar ' ' = [' ', ' ', ' '] := rfl

/-- The loop body on a recognised character appends its pattern and the
character gap. -/
theorem encodeChar_key {c : Char} (h : (MORSE_CODE.lookup c).isSome = true) :
    encodeChar c = patOf c ++ [' '] := by
  have hc : c ≠ ' ' := by
    intro e
    subst e
    rw [lookup_space] at h
    simp at h
  obtain ⟨p, hp⟩ := Option.isSome_iff_exists.mp h
  rw [encodeChar, if_neg hc, hp, patOf, hp]
  rfl

/-- The concatenated loop output for one recognised word: its encoded form
followed by one character gap. -/
theorem flatten_encode_word :
    ∀ {u : List Char}, GoodWord u → (u.map encodeChar).flatten = encW u ++ [' ']
  | [c], h => by
    simp only [List.map_cons, List.map_nil, List.flatten_cons, List.flatten_nil,
      List.append_nil]
    rw [encodeChar_key (h.2 c (by simp))]
    rfl
  | c :: d :: u', h => by
    have h2 : GoodWord (d :: u') :=
      ⟨by simp, fun x hx => h.2 x (List.mem_cons_of_mem _ hx)⟩
    rw [List.map_cons, List.flatten_cons]
    rw [flatten_encode_word h2, encodeChar_key (h.2 c (by simp))]
    show _ = joinWords [' '] (patOf c :: patOf d :: u'.map patOf) ++ [' ']
    rw [joinWords]
    show _ = ((patOf c ++ [' ']) ++ encW (d :: u')) ++ [' ']
    simp [List.append_assoc]

/-- The concatenated loop output for a recognised multi-word text: the
words' encoded forms joined by FOUR spaces (the character gap written
after each word plus the three-space word gap), plus one trailing
character gap. -/
theorem flatten_encode_joinWords :
    ∀ {us : List (List Char)}, us ≠ [] → (∀ u ∈ us, GoodWord u) →
      ((joinWords [' '] us).map encodeChar).flatten
        = joinWords [' ', ' ', ' ', ' '] (us.map encW) ++ [' ']
  | [u], _, h => by
    rw [joinWords, flatten_encode_word (h u (by simp))]
    rfl
  | u :: v :: us', _, h => by
    rw [joinWords]
    simp only [List.map_append, List.flatten_append]
    rw [flatten_encode_word (h u (by simp)),
      @flatten_encode_joinWords (v :: us') (by simp)
        (fun x hx => h x (List.mem_cons_of_mem _ hx))]
    show _ = joinWords [' ', ' ', ' ', ' '] (encW u :: encW v :: us'.map encW) ++ [' ']
    rw [joinWords]
    show _ = ((encW u ++ [' ', ' ', ' ', ' '])
        ++ joinWords [' ', ' ', ' ', ' '] (encW v :: us'.map encW)) ++ [' ']
    simp [encodeChar_space, List.append_assoc]

/-- Joining space-decorated pieces with three spaces is joining the plain
pieces with four. -/
theorem joinWords_three_map_space :
    ∀ {vs : List (List Char)}, vs ≠ [] →
      joinWords [' ', ' ', ' '] (vs.map (fun w => ' ' :: w))
        = ' ' :: joinWords [' ', ' ', ' ', ' '] vs
  | [v], _ => rfl
  | v :: w :: vs, _ => by
    rw [List.map_cons, List.map_cons, joinWords,
      ← List.map_cons (fun w => ' ' :: w) w vs,
      @joinWords_three_map_space (w :: vs) (by simp)]
    show _ = ' ' :: ((v ++ [' ', ' ', ' ', ' ']) ++ joinWords [' ', ' ', ' ', ' '] (w :: vs))
    simp [List.append_assoc]

/-- The four-space join of the encoder equals the three-space join of the
decorated pieces the splitter will recover. -/
theorem joinWords_four_decorate :
    ∀ vs : List (List Char),
      joinWords [' ', ' ', ' ', ' '] vs = joinWords [' ', ' ', ' '] (decorate vs)
  | [] => rfl
  | [v] => rfl
  | v :: w :: vs => by
    show (v ++ [' ', ' ', ' ', ' ']) ++ joinWords [' ', ' ', ' ', ' '] (w :: vs)
      = joinWords [' ', ' ', ' '] (v :: (w :: vs).map (fun w => ' ' :: w))
    rw [List.map_cons, joinWords, ← List.map_cons (fun w => ' ' :: w) w vs,
      joinWords_three_map_space (by simp)]
    simp [List.append_assoc]

/-! ## Lemmas about the decoder -/

/-- Reverse lookup undoes the pattern map on recognised characters. -/
theorem filterMap_lookupRev_patOf :
    ∀ {u : List Char}, (∀ c ∈ u, (MORSE_CODE.lookup c).isSome = true) →
      (u.map patOf).filterMap (fun pat => REVERSE_MORSE.lookup pat) = u := by
  intro u
  induction u with
  | nil => intro _; rfl
  | cons c rest ih =>
    intro h
    rw [List.map_cons,
      @List.filterMap_cons_some (List Char) Char
        (fun pat => REVERSE_MORSE.lookup pat) (patOf c) (rest.map patOf) c
        ((key_facts (h c (by simp))).2.2.1),
      ih (fun x hx => h x (List.mem_cons_of_mem _ hx))]

/-! ## The shape of the encoder's output -/

/-- Prepending to a nonempty list does not change its last element. -/
theorem getLast?_cons_ne {l : List Char} (a : Char) (h : l ≠ []) :
    (a :: l).getLast? = l.getLast? := by
  cases l with
  | nil => exact absurd rfl h
  | cons b rest => rw [List.getLast?_cons_cons]

/-- The pattern pieces of a recognised word are space-free and nonempty. -/
theorem pat_pieces_wf {u : List Char}
    (h : ∀ c ∈ u, (MORSE_CODE.lookup c).isSome = true) :
    ∀ p ∈ u.map patOf, ' ' ∉ p ∧ p ≠ [] := by
  intro p hp
  obtain ⟨c, hc, rfl⟩ := List.mem_map.mp hp
  exact ⟨sf_of_dotDash (key_facts (h c hc)).2.1, (key_facts (h c hc)).1⟩

/-- The encoded form of a recognised word is nonempty, begins and ends in
a dot or dash, and has no double space. -/
theorem encW_facts {u : List Char} (h : GoodWord u) :
    (∃ c, (encW u).head? = some c ∧ (c = '.' ∨ c = '-')) ∧
    (∃ c, (encW u).getLast? = some c ∧ (c = '.' ∨ c = '-')) ∧
    noTwoSp (encW u) = true ∧ encW u ≠ [] := by
  obtain ⟨hne, hkeys⟩ := h
  have hpieces := pat_pieces_wf hkeys
  have hhead : ∃ c, (encW u).head? = some c ∧ (c = '.' ∨ c = '-') := by
    cases u with
    | nil => exact absurd rfl hne
    | cons c0 u' =>
      have hp0 : patOf c0 ≠ [] := (key_facts (hkeys c0 (by simp))).1
      have : (encW (c0 :: u')).head? = (patOf c0).head? :=
        joinWords_head? [' '] (by rw [List.map_cons, List.head?_cons]) hp0
      cases hd : (patOf c0).head? with
      | none => exact absurd (by simpa using hd) hp0
      | some ch =>
        exact ⟨ch, by rw [this, hd],
          (key_facts (hkeys c0 (by simp))).2.1 ch (head_mem_of_head? hd)⟩
  have hlast : ∃ c, (encW u).getLast? = some c ∧ (c = '.' ∨ c = '-') := by
    obtain ⟨cl, hcl⟩ := getLast?_ne_nil hne
    have hclmem : cl ∈ u := last_mem_of_getLast? hcl
    have hpl : patOf cl ≠ [] := (key_facts (hkeys cl hclmem)).1
    have hml : (u.map patOf).getLast? = some (patOf cl) := by
      rw [getLast?_map, hcl]
      rfl
    have : (encW u).getLast? = (patOf cl).getLast? :=
      joinWords_getLast? [' '] hml hpl
    obtain ⟨ch, hch⟩ := getLast?_ne_nil hpl
    exact ⟨ch, by rw [this, hch],
      (key_facts (hkeys cl hclmem)).2.1 ch (last_mem_of_getLast? hch)⟩
  refine ⟨hhead, hlast, noTwoSp_joinWords_sf hpieces, ?_⟩
  obtain ⟨c, hc, _⟩ := hhead
  exact ne_nil_of_head? hc

/-- The uppercased words of a recognisable text are recognised words. -/
theorem good_words_of_upper {ws : List (List Char)}
    (h : ∀ w ∈ ws, w ≠ [] ∧
      ∀ c ∈ w, (MORSE_CODE.lookup (pyUpperChar c)).isSome = true) :
    ∀ u ∈ ws.map (List.map pyUpperChar), GoodWord u := by
  intro u hu
  obtain ⟨w, hw, rfl⟩ := List.mem_map.mp hu
  refine ⟨by simpa using (h w hw).1, fun c' hc' => ?_⟩
  obtain ⟨c, hc, rfl⟩ := List.mem_map.mp hc'
  exact (h w hw).2 c hc

/-- Python's upper fixes the space character. -/
theorem pyUpperChar_space : pyUpperChar ' ' = ' ' := rfl

/-- What `text_to_morse` produces on a recognisable text whose words are
separated by single spaces: the encoded words joined by FOUR spaces. -/
theorem text_to_morse_joinWords {ws : List (List Char)} (hne : ws ≠ [])
    (h : ∀ w ∈ ws, w ≠ [] ∧
      ∀ c ∈ w, (MORSE_CODE.lookup (pyUpperChar c)).isSome = true) :
    text_to_morse (joinWords [' '] ws)
      = joinWords [' ', ' ', ' ', ' ']
          ((ws.map (List.map pyUpperChar)).map encW) := by
  have husne : ws.map (List.map pyUpperChar) ≠ [] := by
    simpa using hne
  rw [text_to_morse, map_joinWords]
  simp only [List.map_cons, List.map_nil, pyUpperChar_space]
  rw [flatten_encode_joinWords husne (good_words_of_upper h)]
  obtain ⟨u0, rest, hus⟩ := List.exists_cons_of_ne_nil husne
  have hgood := good_words_of_upper h
  rw [hus] at hgood ⊢
  have h0 := encW_facts (hgood u0 (by simp))
  obtain ⟨c0, hc0, hdd0⟩ := h0.1
  have hJhead : (joinWords [' ', ' ', ' ', ' ']
      ((u0 :: rest).map encW)).head? = some c0 := by
    rw [joinWords_head? _ (by rw [List.map_cons, List.head?_cons]) h0.2.2.2, hc0]
  obtain ⟨ul, hul⟩ := getLast?_ne_nil (l := u0 :: rest) (by simp)
  have hulmem : ul ∈ u0 :: rest := last_mem_of_getLast? hul
  have hl := encW_facts (hgood ul hulmem)
  obtain ⟨dl, hdl, hdddl⟩ := hl.2.1
  have hJlast : (joinWords [' ', ' ', ' ', ' ']
      ((u0 :: rest).map encW)).getLast? = some dl := by
    rw [joinWords_getLast? _ (by rw [getLast?_map, hul]; rfl) hl.2.2.2, hdl]
  rw [stripChars_append_ws hJhead (dotDash_not_ws hdd0)
    hJlast (dotDash_not_ws hdddl)]

/-! ## Decoding the encoder's output -/

/-- Decoding one encoded word recovers the word. -/
theorem wordDecode_encW {u : List Char} (h : GoodWord u) :
    (splitOnSpace (encW u)).filterMap
      (fun pat => REVERSE_MORSE.lookup pat) = u := by
  rw [encW, splitOnSpace_joinWords (by simpa using h.1)
      (fun p hp => (pat_pieces_wf h.2 p hp).1),
    filterMap_lookupRev_patOf h.2]

/-- Decoding a decorated encoded word drops the leading empty pattern and
recovers the word. -/
theorem wordDecode_decorated {u : List Char} (h : GoodWord u) :
    (splitOnSpace (' ' :: encW u)).filterMap
      (fun pat => REVERSE_MORSE.lookup pat) = u := by
  rw [splitOnSpace_space,
    @List.filterMap_cons_none (List Char) Char
      (fun pat => REVERSE_MORSE.lookup pat) [] (splitOnSpace (encW u))
      lookupRev_nil,
    wordDecode_encW h]

/-- An encoded word piece has no double space and does not end in a
space. -/
theorem encW_piece_facts {u : List Char} (h : GoodWord u) :
    noTwoSp (encW u) = true ∧ (encW u).getLast? ≠ some ' ' := by
  obtain ⟨_, ⟨dl, hdl, hddl⟩, hnt, _⟩ := encW_facts h
  refine ⟨hnt, ?_⟩
  rw [hdl]
  intro he
  rw [Option.some_inj] at he
  exact dotDash_ne_space hddl he

/-- A decorated encoded word piece has no double space and does not end in
a space. -/
theorem decorated_piece_facts {u : List Char} (h : GoodWord u) :
    noTwoSp (' ' :: encW u) = true ∧ (' ' :: encW u).getLast? ≠ some ' ' := by
  obtain ⟨⟨c0, hc0, hdd0⟩, ⟨dl, hdl, hddl⟩, hnt, hne⟩ := encW_facts h
  constructor
  · exact noTwoSp_space_cons hc0 (dotDash_ne_space hdd0) hnt
  · rw [getLast?_cons_ne _ hne, hdl]
    intro he
    rw [Option.some_inj] at he
    exact dotDash_ne_space hddl he

/-- Splitting the encoder's four-space output recovers the decorated
pieces. -/
theorem splitOnThreeSpaces_enc {us : List (List Char)} (hne : us ≠ [])
    (h : ∀ u ∈ us, GoodWord u) :
    splitOnThreeSpaces (joinWords [' ', ' ', ' ', ' '] (us.map encW))
      = decorate (us.map encW) := by
  rw [joinWords_four_decorate]
  obtain ⟨u0, rest, rfl⟩ := List.exists_cons_of_ne_nil hne
  apply splitOnThreeSpaces_joinWords
  · rw [List.map_cons, decorate]
    simp
  · intro v hv
    rw [List.map_cons, decorate] at hv
    rcases List.mem_cons.mp hv with rfl | hv2
    · exact encW_piece_facts (h u0 (by simp))
    · obtain ⟨w, hw, rfl⟩ := List.mem_map.mp hv2
      obtain ⟨u, hu, rfl⟩ := List.mem_map.mp hw
      exact decorated_piece_facts (h u (List.mem_cons_of_mem _ hu))

/-- Per-word decoding across the decorated word pieces. -/
theorem map_decode_decorated {rest : List (List Char)}
    (h : ∀ u ∈ rest, GoodWord u) :
    ((rest.map encW).map (fun w => ' ' :: w)).map
      (fun word => ((splitOnSpace word).filterMap
        (fun pat => REVERSE_MORSE.lookup pat)) ++ [' '])
      = rest.map (fun u => u ++ [' ']) := by
  induction rest with
  | nil => rfl
  | cons u rest ih =>
    simp only [List.map_cons]
    rw [wordDecode_decorated (h u (by simp)),
      ih (fun x hx => h x (List.mem_cons_of_mem _ hx))]

/-- Flattening the per-word decodes appends the words with single spaces
plus one trailing space. -/
theorem flatten_words_space :
    ∀ {us : List (List Char)}, us ≠ [] →
      (us.map (fun u => u ++ [' '])).flatten = joinWords [' '] us ++ [' ']
  | [u], _ => by simp [joinWords]
  | u :: v :: us, _ => by
    rw [List.map_cons, List.flatten_cons,
      @flatten_words_space (v :: us) (by simp)]
    show _ = ((u ++ [' ']) ++ joinWords [' '] (v :: us)) ++ [' ']
    simp [List.append_assoc]

/-- The single-space join of recognised words begins and ends in a
non-whitespace character. -/
theorem join_words_ends {us : List (List Char)} (hne : us ≠ [])
    (h : ∀ u ∈ us, GoodWord u) :
    ∃ c d, (joinWords [' '] us).head? = some c ∧ isPyWS c = false ∧
      (joinWords [' '] us).getLast? = some d ∧ isPyWS d = false := by
  obtain ⟨u0, rest, rfl⟩ := List.exists_cons_of_ne_nil hne
  have h0 := h u0 (by simp)
  cases hh : u0.head? with
  | none => exact absurd (by simpa using hh) h0.1
  | some c0 =>
    have hch : (joinWords [' '] (u0 :: rest)).head? = some c0 := by
      rw [joinWords_head? _ List.head?_cons h0.1, hh]
    obtain ⟨ul, hul⟩ := getLast?_ne_nil (l := u0 :: rest) (by simp)
    have hw := h ul (last_mem_of_getLast? hul)
    obtain ⟨dl, hdl⟩ := getLast?_ne_nil hw.1
    have hcl : (joinWords [' '] (u0 :: rest)).getLast? = some dl := by
      rw [joinWords_getLast? _ hul hw.1, hdl]
    exact ⟨c0, dl, hch,
      (key_facts (h0.2 c0 (head_mem_of_head? hh))).2.2.2, hcl,
      (key_facts (hw.2 dl (last_mem_of_getLast? hdl))).2.2.2⟩

/-- Python's upper commutes out of a single-space join. -/
theorem pyUpper_joinWords (ws : List (List Char)) :
    pyUpper (joinWords [' '] ws)
      = joinWords [' '] (ws.map (List.map pyUpperChar)) := by
  rw [pyUpper, map_joinWords]
  simp only [List.map_cons, List.map_nil, pyUpperChar_space]

/-! ## Claim theorems: the codec round trip -/

/-- C1: for every text made of words the table recognises (after
uppercasing), separated by single spaces, decoding the encoding returns
the uppercased text. -/
theorem morse_roundtrip_upper (ws : List (List Char)) (hne : ws ≠ [])
    (h : ∀ w ∈ ws, w ≠ [] ∧
      ∀ c ∈ w, (MORSE_CODE.lookup (pyUpperChar c)).isSome = true) :
    morse_to_text (text_to_morse (joinWords [' '] ws))
      = pyUpper (joinWords [' '] ws) := by
  rw [text_to_morse_joinWords hne h, pyUpper_joinWords]
  have husne : ws.map (List.map pyUpperChar) ≠ [] := by simpa using hne
  have hgood := good_words_of_upper h
  rw [morse_to_text, splitOnThreeSpaces_enc husne hgood]
  obtain ⟨u0, rest, hus⟩ := List.exists_cons_of_ne_nil husne
  rw [hus] at hgood ⊢
  rw [List.map_cons, decorate]
  simp only [List.map_cons]
  rw [wordDecode_encW (hgood u0 (by simp)),
    map_decode_decorated (fun x hx => hgood x (List.mem_cons_of_mem _ hx)),
    ← List.map_cons (fun u => u ++ [' ']) u0 rest,
    flatten_words_space (by simp)]
  obtain ⟨c, d, hch, hcw, hcl, hdw⟩ :=
    @join_words_ends (u0 :: rest) (by simp) hgood
  rw [stripChars_append_ws hch hcw hcl hdw]

/-- Witness for C1 at the two-word lowercase text "hi u". -/
theorem morse_roundtrip_upper_witness :
    morse_to_text (text_to_morse (joinWords [' '] [['h', 'i'], ['u']]))
      = pyUpper (joinWords [' '] [['h', 'i'], ['u']]) :=
  morse_roundtrip_upper [['h', 'i'], ['u']] (by decide) (by decide)

/-! ## Claim theorems: case insensitivity and skipping -/

/-- Values of the case table are not themselves lowercase keys. -/
theorem upper_values_not_lower :
    ∀ pr ∈ LOWER_UPPER, LOWER_UPPER.lookup pr.2 = none := by
  decide

/-- Values of the case table are not the space character. -/
theorem upper_values_not_space : ∀ pr ∈ LOWER_UPPER, pr.2 ≠ ' ' := by
  decide

/-- Python's per-character upper is idempotent. -/
theorem pyUpperChar_idem (c : Char) :
    pyUpperChar (pyUpperChar c) = pyUpperChar c := by
  cases h : LOWER_UPPER.lookup c with
  | none =>
    have h1 : pyUpperChar c = c := by rw [pyUpperChar, h]; rfl
    rw [h1]
    exact h1
  | some u =>
    have h1 : pyUpperChar c = u := by rw [pyUpperChar, h]; rfl
    have h2 : pyUpperChar u = u := by
      rw [pyUpperChar, upper_values_not_lower (c, u) (lookup_mem h)]
      rfl
    rw [h1, h2]

/-- Python's upper on a string is idempotent. -/
theorem pyUpper_idem (s : List Char) : pyUpper (pyUpper s) = pyUpper s := by
  induction s with
  | nil => rfl
  | cons c s ih =>
    show pyUpperChar (pyUpperChar c) :: pyUpper (pyUpper s)
      = pyUpperChar c :: pyUpper s
    rw [pyUpperChar_idem, ih]

/-- Python's upper never produces the space character from another
character. -/
theorem pyUpperChar_ne_space {c : Char} (hc : c ≠ ' ') :
    pyUpperChar c ≠ ' ' := by
  cases h : LOWER_UPPER.lookup c with
  | none => rw [pyUpperChar, h]; exact hc
  | some u =>
    rw [pyUpperChar, h]
    exact upper_values_not_space (c, u) (lookup_mem h)

/-- C8 (amended): `text_to_morse` is case-insensitive, and every
character other than the space separator whose uppercase form the table
does not recognise is skipped, contributing nothing to the output. -/
theorem text_to_morse_case_insensitive_and_skips :
    (∀ s : List Char, text_to_morse s = text_to_morse (pyUpper s)) ∧
    (∀ (c : Char) (xs ys : List Char), c ≠ ' ' →
      MORSE_CODE.lookup (pyUpperChar c) = none →
      text_to_morse (xs ++ c :: ys) = text_to_morse (xs ++ ys)) := by
  constructor
  · intro s
    have hmap : (pyUpper s).map pyUpperChar = s.map pyUpperChar := by
      show pyUpper (pyUpper s) = pyUpper s
      exact pyUpper_idem s
    rw [text_to_morse, text_to_morse, hmap]
  · intro c xs ys hc hl
    have henc : encodeChar (pyUpperChar c) = [] := by
      rw [encodeChar, if_neg (pyUpperChar_ne_space hc), hl]
    rw [text_to_morse, text_to_morse]
    simp only [List.map_append, List.map_cons, List.flatten_append,
      List.flatten_cons, henc, List.nil_append]

/-- Witness for C8's amended statement at the lowercase input "a" and at
inserting the unrecognised character '#'. -/
theorem text_to_morse_case_insensitive_and_skips_witness :
    text_to_morse ['a'] = text_to_morse (pyUpper ['a']) ∧
    ('#' ≠ ' ' ∧ MORSE_CODE.lookup (pyUpperChar '#') = none) ∧
    text_to_morse (['A'] ++ '#' :: ['B']) = text_to_morse (['A'] ++ ['B']) :=
  ⟨text_to_morse_case_insensitive_and_skips.1 ['a'],
   ⟨by decide, by decide⟩,
   text_to_morse_case_insensitive_and_skips.2 '#' ['A'] ['B']
     (by decide) (by decide)⟩

/-- C8 counterexample: the space character has no entry in the Morse
table, yet inserting it changes the output — it is not skipped. -/
theorem space_unmapped_but_contributes :
    MORSE_CODE.lookup ' ' = none ∧
    text_to_morse ['A', ' ', 'B'] ≠ text_to_morse ['A', 'B'] := by
  decide

/-! ## Claim theorems: silent dropping of unmapped patterns -/

/-- Decoding a single-word morse string of space-free nonempty pieces:
each piece is looked up, unmapped pieces are dropped. -/
theorem morse_word_decode {ps : List (List Char)} (hne : ps ≠ [])
    (h : ∀ p ∈ ps, ' ' ∉ p ∧ p ≠ []) :
    morse_to_text (joinWords [' '] ps)
      = stripChars ((ps.filterMap
          (fun pat => REVERSE_MORSE.lookup pat)) ++ [' ']) := by
  rw [morse_to_text,
    splitOnThreeSpaces_noTwo (noTwoSp_joinWords_sf h)]
  simp only [List.map_cons, List.map_nil, List.flatten_cons,
    List.flatten_nil, List.append_nil]
  rw [splitOnSpace_joinWords hne (fun p hp => (h p hp).1)]

/-- C9: a space-separated pattern with no entry in the reverse table is
dropped silently — the decode of the message equals the decode of the
message with that pattern removed; the remaining patterns still decode. -/
theorem unmapped_pattern_dropped (us vs : List (List Char)) (b : List Char)
    (h : ∀ p ∈ us ++ vs, ' ' ∉ p ∧ p ≠ []) (hbs : ' ' ∉ b) (hbn : b ≠ [])
    (hlb : REVERSE_MORSE.lookup b = none) :
    morse_to_text (joinWords [' '] (us ++ b :: vs))
      = morse_to_text (joinWords [' '] (us ++ vs)) := by
  have hall : ∀ p ∈ us ++ b :: vs, ' ' ∉ p ∧ p ≠ [] := by
    intro p hp
    rcases List.mem_append.mp hp with h1 | h2
    · exact h p (List.mem_append.mpr (Or.inl h1))
    · rcases List.mem_cons.mp h2 with rfl | h3
      · exact ⟨hbs, hbn⟩
      · exact h p (List.mem_append.mpr (Or.inr h3))
  rw [morse_word_decode (by simp) hall]
  by_cases hcase : us ++ vs = []
  · obtain ⟨hu, hv⟩ := List.append_eq_nil.mp hcase
    subst hu
    subst hv
    rw [List.nil_append,
      @List.filterMap_cons_none (List Char) Char
        (fun pat => REVERSE_MORSE.lookup pat) b [] hlb]
    rfl
  · rw [morse_word_decode hcase h, List.filterMap_append, List.filterMap_append,
      @List.filterMap_cons_none (List Char) Char
        (fun pat => REVERSE_MORSE.lookup pat) b vs hlb]

/-- Witness for C9: dropping the unrecognised eight-dot pattern from
".- ........ -" decodes like ".- -". -/
theorem unmapped_pattern_dropped_witness :
    morse_to_text (joinWords [' ']
        ([['.', '-']] ++ ['.', '.', '.', '.', '.', '.', '.', '.'] :: [['-']]))
      = morse_to_text (joinWords [' '] ([['.', '-']] ++ [['-']])) :=
  unmapped_pattern_dropped [['.', '-']] [['-']]
    ['.', '.', '.', '.', '.', '.', '.', '.']
    (by decide) (by decide) (by decide) (by decide)

/-! ## Claim theorems: totality, empty strings and trimming -/

/-- A stripped string never begins or ends with the space character. -/
theorem stripChars_ends_not_space (l : List Char) :
    ((stripChars l).head?.all fun c => !(c == ' ')) = true ∧
    ((stripChars l).getLast?.all fun c => !(c == ' ')) = true := by
  constructor
  · cases h : (stripChars l).head? with
    | none => rfl
    | some c =>
      have hw := stripChars_head_not_ws h
      show (!(c == ' ')) = true
      rw [isPyWS] at hw
      simp only [Bool.or_eq_false_iff] at hw
      simp [hw.1]
  · cases h : (stripChars l).getLast? with
    | none => rfl
    | some c =>
      have hw := stripChars_last_not_ws h
      show (!(c == ' ')) = true
      rw [isPyWS] at hw
      simp only [Bool.or_eq_false_iff] at hw
      simp [hw.1]

/-- C10: both codec directions are total functions that map the empty
string to the empty string, and no output of either ever carries a
leading or trailing space. -/
theorem codec_total_empty_and_trimmed :
    text_to_morse [] = [] ∧ morse_to_text [] = [] ∧
    ∀ s : List Char,
      ((text_to_morse s).head?.all fun c => !(c == ' ')) = true ∧
      ((text_to_morse s).getLast?.all fun c => !(c == ' ')) = true ∧
      ((morse_to_text s).head?.all fun c => !(c == ' ')) = true ∧
      ((morse_to_text s).getLast?.all fun c => !(c == ' ')) = true := by
  refine ⟨rfl, by decide, fun s => ?_⟩
  exact ⟨(stripChars_ends_not_space _).1, (stripChars_ends_not_space _).2,
    (stripChars_ends_not_space _).1, (stripChars_ends_not_space _).2⟩

/-! ## Lemmas about the monitor loop -/

/-- After one monitor iteration the stored flag equals the observed level. -/
theorem monitorStep_fst (p b f : Bool) : (monitorStep p b f).1 = b := by
  cases p <;> cases b <;> cases f <;> rfl

/-- One iteration emits an event exactly on a rising edge. -/
theorem monitorStep_event_count (p b f : Bool) :
    (monitorStep p b f).2.toList.length = (if b && !p then 1 else 0) := by
  cases p <;> cases b <;> cases f <;> rfl

/-- The monitor loop processes concatenated traces sequentially. -/
theorem monitorRun_append (p : Bool) (xs ys : List (Bool × Bool)) :
    monitorRun p (xs ++ ys) =
      ((monitorRun (monitorRun p xs).1 ys).1,
       (monitorRun p xs).2 ++ (monitorRun (monitorRun p xs).1 ys).2) := by
  induction xs generalizing p with
  | nil => simp [monitorRun]
  | cons x rest ih =>
    obtain ⟨b, f⟩ := x
    simp [monitorRun, ih]

/-- A release observation followed by a press observation always ends with
the flag set and exactly one successful callback, whatever state the
monitor was in. -/
theorem monitorRun_release_press (q f : Bool) :
    monitorRun q [(false, f), (true, false)] = (true, [MonEvent.callbackOk]) := by
  cases q <;> rfl

/-! ## Claim theorems: orchestrator and button monitor -/

/-- C5: a callback failure during a press is caught: the iteration reports
`callbackErrorReported` instead of crashing, leaves the monitor in exactly
the state a successful callback would have left it in, and after any
history whatsoever (failures included) a release followed by a fresh press
invokes the callback again — the loop is never stuck. -/
theorem callback_failure_reported_and_recovered :
    (∀ p b : Bool, (monitorStep p b true).1 = (monitorStep p b false).1) ∧
    (∀ f : Bool, (monitorStep false true f).2 =
      some (if f then MonEvent.callbackErrorReported else MonEvent.callbackOk)) ∧
    (∀ (p : Bool) (trace : List (Bool × Bool)) (f : Bool),
      monitorRun p (trace ++ [(false, f), (true, false)]) =
        (true, (monitorRun p trace).2 ++ [MonEvent.callbackOk])) := by
  refine ⟨?_, ?_, ?_⟩
  · intro p b; cases p <;> cases b <;> rfl
  · intro f; rfl
  · intro p trace f
    rw [monitorRun_append, monitorRun_release_press]

/-- C7: a press level observed while the flag is already set is a no-op,
and over any finite observation trace the callback is invoked exactly once
per rising edge — never repeatedly while the pressed level persists. -/
theorem callback_once_per_press_edge :
    (∀ f : Bool, monitorStep true true f = (true, none)) ∧
    (∀ (p : Bool) (trace : List (Bool × Bool)),
      (monitorRun p trace).2.length = countRising p (trace.map Prod.fst)) := by
  refine ⟨fun f => rfl, ?_⟩
  intro p trace
  induction trace generalizing p with
  | nil => rfl
  | cons x rest ih =>
    obtain ⟨b, f⟩ := x
    simp only [monitorRun, List.length_append, List.map_cons, countRising,
      monitorStep_event_count, monitorStep_fst, ih]

/-- C6: whenever playback is in progress, the handler's first collaborator
call is the playback sink's stop, strictly before the recording call; and
on either classification branch the recording call strictly precedes the
playback of the response, so recording and playback never overlap inside
the handler. -/
theorem playback_stopped_before_recording :
    ∀ m : Bool,
      (PressAction.sinkStop ∈ handleTrace true m ∧
        (handleTrace true m).indexOf PressAction.sinkStop
          < (handleTrace true m).indexOf PressAction.record) ∧
      (∀ playing : Bool,
        PressAction.record ∈ handleTrace playing m ∧
        PressAction.speak ∈ handleTrace playing m ∧
        (handleTrace playing m).indexOf PressAction.record
          < (handleTrace playing m).indexOf PressAction.speak) := by
  intro m
  exact ⟨by cases m <;> decide, fun playing => by cases m <;> cases playing <;> decide⟩

/-! ## Claim theorems: Morse detection -/

/-- C3 (code bug): a buffer containing a single above-threshold spike —
one tone segment, no evidence of several well-formed segments or of a
stable time unit — is classified as Morse by the source's `is_morse` stub
and dispatched to the Morse path: the stub consults no segment count or
unit estimate.  The quiet half of the claim does hold at this input scale:
a buffer that never exceeds the threshold goes to the speech path. -/
theorem single_spike_classified_as_morse :
    is_morse [mkRat 3 5] = true ∧
    toneRunCount amplitudeThreshold [mkRat 3 5] = 1 ∧
    recognizeBranch [mkRat 3 5] = Branch.morse ∧
    is_morse [mkRat 2 5, mkRat (-1) 2, mkRat 0 1] = false ∧
    recognizeBranch [mkRat 2 5, mkRat (-1) 2, mkRat 0 1] = Branch.speech := by
  decide

/-! ## Claim theorems: the Morse table -/

/-- C4: every `MORSE_CODE` entry round-trips through `REVERSE_MORSE`, and
no two distinct characters share a dot/dash pattern. -/
theorem morse_table_reversible :
    (∀ pr ∈ MORSE_CODE, REVERSE_MORSE.lookup pr.2 = some pr.1) ∧
    (∀ a ∈ MORSE_CODE, ∀ b ∈ MORSE_CODE, a.2 = b.2 → a.1 = b.1) := by
  decide

/-- Witness for C4 at the entry ('A', ".-"). -/
theorem morse_table_reversible_witness :
    REVERSE_MORSE.lookup (".-".toList) = some 'A' ∧ 'A' = 'A' :=
  ⟨morse_table_reversible.1 ('A', ".-".toList) (by decide),
   morse_table_reversible.2 ('A', ".-".toList) (by decide)
     ('A', ".-".toList) (by decide) rfl⟩

/-- C2 (code bug): evaluated at "HELLO WORLD", the embedded
`text_to_morse` yields FOUR spaces at the word boundary — the character
gap appended after "---" plus the three-space word gap — where the spec
and the repository's own test (tests/test_morse.py lines 37-38) require
exactly three. -/
theorem hello_world_word_gap_is_four_spaces :
    text_to_morse ("HELLO WORLD".toList)
      = ".... . .-.. .-.. ---    .-- --- .-. .-.. -..".toList := by
  decide

end Rune
